import Mathlib

/-!
Verification of the privacy-cash Rust SDK core against its specification.

The development is a shallow embedding of the SDK's pure core:

* field values (`BigUint` decimal strings flowing through the code) are
  modelled as `ℕ`;
* the Poseidon-placeholder hash (`ZkKeypair::poseidon_hash` /
  `poseidon_hash_strings` in `src/keypair.rs`, a Keccak256-based stand-in
  reduced mod the field) is abstracted as a parameter `H : List ℕ → ℕ`:
  every definition below is parametric in `H`, and theorems that need
  collision-freeness take it as an explicit hypothesis;
* fallible operations return `Except PCError` mirroring the
  `Result<_, PrivacyCashError>` signatures;
* external collaborators (the AES-GCM crate, program-derived-address
  hashing, ledger account lookups, the relayer HTTP API) are parameters
  of the definitions that call them.
-/

namespace PrivacyCash

/-- Error type mirroring the variants of `PrivacyCashError` that the core
code paths below can produce.  The Rust field `have` of
`InsufficientBalance` is a Lean keyword, so it is called `hav` here. -/
inductive PCError where
  | insufficientBalance (need hav : ℕ)
  | merkleProofError (msg : String)
  deriving DecidableEq, Repr

/-! ## Merkle tree (`src/merkle_tree.rs`)

`DEFAULT_ZERO` is the string `"0"`, i.e. the field value `0`.  The tree
stores `levels + 1` layers, `layers[0]` being the leaves. -/

/-- Precomputed zero values for each level (`MerkleTree::with_elements`,
lines 44-51): `zeros[0] = DEFAULT_ZERO`, `zeros[i] = H(zeros[i-1], zeros[i-1])`. -/
def zerosF (H : List ℕ → ℕ) : ℕ → ℕ
  | 0 => 0
  | k + 1 => H [zerosF H k, zerosF H k]

/-- One step of `MerkleTree::rebuild` (lines 75-99): hash consecutive pairs
of the previous layer, the missing right sibling of an odd-length layer
falling back to the previous level's zero value `z`.  The left child index
`2*i` is always in range for `i < (len+1)/2`, so `getD` with default `z`
agrees with the source's direct indexing. -/
def hashLayer (H : List ℕ → ℕ) (z : ℕ) (l : List ℕ) : List ℕ :=
  (List.range ((l.length + 1) / 2)).map (fun i => H [l.getD (2 * i) z, l.getD (2 * i + 1) z])

/-- The layer at height `k` obtained by `rebuild` from the given leaves. -/
def layerAt (H : List ℕ → ℕ) (leaves : List ℕ) : ℕ → List ℕ
  | 0 => leaves
  | k + 1 => hashLayer H (zerosF H k) (layerAt H leaves k)

/-- All `levels + 1` layers produced by `MerkleTree::rebuild` from the
given leaves. -/
def buildLayers (H : List ℕ → ℕ) (levels : ℕ) (leaves : List ℕ) : List (List ℕ) :=
  (List.range (levels + 1)).map (layerAt H leaves)

/-- The Merkle tree state: number of levels and the layers
(`layers[0]` = leaves).  `capacity = 2^levels` and the `zeros` vector are
recomputed from `levels` where needed rather than stored. -/
structure MerkleTree where
  levels : ℕ
  layers : List (List ℕ)
  deriving DecidableEq, Repr

/-- `MerkleTree::with_elements` (lines 36-72) specialised to the
`DEFAULT_ZERO` zero element used at every call site: capacity check, then
`rebuild` from the initial elements. -/
def MerkleTree.with_elements (H : List ℕ → ℕ) (levels : ℕ) (elements : List ℕ) :
    Except PCError MerkleTree :=
  if 2 ^ levels < elements.length then .error (.merkleProofError "Tree is full")
  else .ok ⟨levels, buildLayers H levels elements⟩

/-- `MerkleTree::new` (lines 31-33). -/
def MerkleTree.new (H : List ℕ → ℕ) (levels : ℕ) : Except PCError MerkleTree :=
  MerkleTree.with_elements H levels []

/-- `MerkleTree::root` (lines 102-108). -/
def MerkleTree.root (H : List ℕ → ℕ) (t : MerkleTree) : ℕ :=
  if (t.layers.getD t.levels []).isEmpty then zerosF H t.levels
  else (t.layers.getD t.levels []).headD 0

/-- Pad `l` with copies of `z` until its length exceeds `i`, then overwrite
position `i` with `v` — the `while self.layers[lv].len() <= index` push loop
followed by the indexed store in `MerkleTree::update`. -/
def setAt (l : List ℕ) (i : ℕ) (z v : ℕ) : List ℕ :=
  (l ++ List.replicate (i + 1 - l.length) z).set i v

/-- The mutation loop of `MerkleTree::update` (lines 129-164), expressed as
a recursion over the list of layers from the current level upwards.
At level `lv` the current layer is padded with `zeros[lv]` and position
`idx` is overwritten with `v`; the value for the next level hashes the pair
of children `2*(idx/2)` and `2*(idx/2)+1` of the just-updated layer,
missing children falling back to `zeros[lv]`. -/
def updateLoop (H : List ℕ → ℕ) : ℕ → ℕ → ℕ → List (List ℕ) → List (List ℕ)
  | _, _, _, [] => []
  | lv, idx, v, cur :: rest =>
    let cur' := setAt cur idx (zerosF H lv) v
    cur' :: updateLoop H (lv + 1) (idx / 2)
      (H [cur'.getD (2 * (idx / 2)) (zerosF H lv), cur'.getD (2 * (idx / 2) + 1) (zerosF H lv)])
      rest

/-- `MerkleTree::update` (lines 121-167). -/
def MerkleTree.update (H : List ℕ → ℕ) (t : MerkleTree) (index v : ℕ) :
    Except PCError MerkleTree :=
  if 2 ^ t.levels ≤ index then
    .error (.merkleProofError ("Index " ++ toString index ++ " out of bounds"))
  else .ok ⟨t.levels, updateLoop H 0 index v t.layers⟩

/-- `MerkleTree::insert` (lines 111-118): append at `layers[0].len()`,
failing when the tree is at capacity. -/
def MerkleTree.insert (H : List ℕ → ℕ) (t : MerkleTree) (v : ℕ) :
    Except PCError MerkleTree :=
  if 2 ^ t.levels ≤ (t.layers.headD []).length then .error (.merkleProofError "Tree is full")
  else t.update H (t.layers.headD []).length v

/-- `MerkleTree::bulk_insert` (lines 170-177): capacity check, append the
new elements to the leaf layer, then full `rebuild` of all upper layers. -/
def MerkleTree.bulk_insert (H : List ℕ → ℕ) (t : MerkleTree) (elements : List ℕ) :
    Except PCError MerkleTree :=
  if 2 ^ t.levels < (t.layers.headD []).length + elements.length then
    .error (.merkleProofError "Tree is full")
  else .ok ⟨t.levels, buildLayers H t.levels ((t.layers.headD []) ++ elements)⟩

/-- Merkle inclusion proof (`MerklePath`). -/
structure MerklePath where
  path_elements : List ℕ
  path_indices : List ℕ
  deriving DecidableEq, Repr

/-- `MerkleTree::path` (lines 180-210): at each level record the direction
bit `current % 2` and the sibling `current ^^^ 1`, the sibling slot falling
back to `zeros[level]` when absent; `current` at level `lv` is
`index / 2^lv`. -/
def MerkleTree.path (H : List ℕ → ℕ) (t : MerkleTree) (index : ℕ) :
    Except PCError MerklePath :=
  if (t.layers.headD []).length ≤ index then
    .error (.merkleProofError ("Index " ++ toString index ++ " out of bounds"))
  else .ok
    { path_elements := (List.range t.levels).map
        (fun lv => (t.layers.getD lv []).getD ((index / 2 ^ lv) ^^^ 1) (zerosF H lv))
      path_indices := (List.range t.levels).map (fun lv => (index / 2 ^ lv) % 2) }

/-- One hashing step of `MerklePath::verify`: direction bit `0` means the
running value is the left child. -/
def verifyStep (H : List ℕ → ℕ) (cur : ℕ) (eb : ℕ × ℕ) : ℕ :=
  if eb.2 = 0 then H [cur, eb.1] else H [eb.1, cur]

/-- `MerklePath::verify` (lines 248-262): fold the hashing step over the
zipped elements/indices and compare with the expected root.  The source's
`Result<bool>` can only be `Ok` here because all hash inputs are decimal
renderings of `BigUint`s, so the model returns `Bool` directly. -/
def MerklePath.verify (H : List ℕ → ℕ) (p : MerklePath) (leaf expectedRoot : ℕ) : Bool :=
  (p.path_elements.zip p.path_indices).foldl (verifyStep H) leaf == expectedRoot

/-- A sequence of single-leaf `insert` calls, propagating the first error
(the caller pattern used for incremental tree construction). -/
def insertAll (H : List ℕ → ℕ) : MerkleTree → List ℕ → Except PCError MerkleTree
  | t, [] => .ok t
  | t, x :: xs =>
    match MerkleTree.insert H t x with
    | .ok t' => insertAll H t' xs
    | .error e => .error e

/-! ### Structural lemmas about the layer computations -/

theorem hashLayer_length (H : List ℕ → ℕ) (z : ℕ) (l : List ℕ) :
    (hashLayer H z l).length = (l.length + 1) / 2 := by
  simp [hashLayer]

theorem hashLayer_getElem (H : List ℕ → ℕ) (z : ℕ) (l : List ℕ) (i : ℕ)
    (h : i < (hashLayer H z l).length) :
    (hashLayer H z l)[i] = H [l.getD (2 * i) z, l.getD (2 * i + 1) z] := by
  simp [hashLayer]

theorem layerAt_nil (H : List ℕ → ℕ) (k : ℕ) : layerAt H [] k = [] := by
  induction k with
  | zero => rfl
  | succ k ih => simp [layerAt, ih, hashLayer]

theorem layerAt_length (H : List ℕ → ℕ) (leaves : List ℕ) (hne : leaves.length ≠ 0) (k : ℕ) :
    (layerAt H leaves k).length = (leaves.length - 1) / 2 ^ k + 1 := by
  induction k with
  | zero => simp [layerAt]; omega
  | succ k ih =>
    rw [layerAt, hashLayer_length, ih]
    have : (leaves.length - 1) / 2 ^ k + 1 + 1 = (leaves.length - 1) / 2 ^ k + 2 := by omega
    rw [this, Nat.add_div_right _ (by norm_num), Nat.div_div_eq_div_mul, pow_succ]

/-- The division bound used throughout: the layer index `n / 2^k` never
exceeds the layer length `(n-1)/2^k + 1`. -/
theorem div_le_pred_div_succ (n m : ℕ) (hn : n ≠ 0) : n / m ≤ (n - 1) / m + 1 := by
  rcases Nat.eq_zero_or_pos m with hm | hm
  · simp [hm]
  · have h1 : n = (n - 1) + 1 := by omega
    calc n / m = ((n - 1) + 1) / m := by rw [← h1]
    _ ≤ (n - 1) / m + 1 := by
        rw [Nat.succ_div]
        split <;> omega

theorem setAt_length (l : List ℕ) (i z v : ℕ) :
    (setAt l i z v).length = max l.length (i + 1) := by
  simp [setAt]
  omega

theorem setAt_getElem (l : List ℕ) (i z v j : ℕ) (hj : j < (setAt l i z v).length) :
    (setAt l i z v)[j] = if j = i then v else if j < l.length then l.getD j 0 else z := by
  have hj' := hj
  rw [setAt_length] at hj'
  simp only [setAt]
  rcases eq_or_ne j i with rfl | hne
  · rw [List.getElem_set_self, if_pos rfl]
  · rw [List.getElem_set_ne (fun h => hne h.symm)]
    by_cases hl : j < l.length
    · rw [List.getElem_append_left hl, if_neg hne, if_pos hl, List.getD_eq_getElem l 0 hl]
    · have hlen : l.length ≤ j := by omega
      rw [if_neg hne, if_neg hl]
      rw [List.getElem_append_right hlen]
      exact List.getElem_replicate _ _

/-- Appending one leaf changes each rebuilt layer only at the path
position `n / 2^k`: all entries strictly before that position coincide. -/
theorem layerAt_getD_append (H : List ℕ → ℕ) (leaves : List ℕ) (x : ℕ) :
    ∀ (k j d₁ d₂ : ℕ), j < leaves.length / 2 ^ k →
      (layerAt H (leaves ++ [x]) k).getD j d₁ = (layerAt H leaves k).getD j d₂ := by
  intro k
  induction k with
  | zero =>
    intro j d₁ d₂ hj
    simp only [pow_zero, Nat.div_one] at hj
    have hj' : j < (leaves ++ [x]).length := by simp; omega
    rw [layerAt, layerAt, List.getD_eq_getElem _ _ hj', List.getD_eq_getElem _ _ hj]
    exact List.getElem_append_left hj
  | succ k ih =>
    intro j d₁ d₂ hj
    have hn : leaves.length ≠ 0 := by
      intro h0
      rw [h0] at hj
      simp at hj
    have hlen1 : (layerAt H (leaves ++ [x]) (k + 1)).length
        = leaves.length / 2 ^ (k + 1) + 1 := by
      rw [layerAt_length H _ (by simp)]
      simp
    have hlen2 : (layerAt H leaves (k + 1)).length = (leaves.length - 1) / 2 ^ (k + 1) + 1 :=
      layerAt_length H _ hn _
    have hj1 : j < (layerAt H (leaves ++ [x]) (k + 1)).length := by omega
    have hj2 : j < (layerAt H leaves (k + 1)).length := by
      have := div_le_pred_div_succ leaves.length (2 ^ (k + 1)) hn
      omega
    rw [List.getD_eq_getElem _ _ hj1, List.getD_eq_getElem _ _ hj2]
    simp only [layerAt]
    rw [hashLayer_getElem, hashLayer_getElem]
    have hdiv : leaves.length / 2 ^ (k + 1) = leaves.length / 2 ^ k / 2 := by
      rw [Nat.div_div_eq_div_mul, pow_succ]
    have h2j : 2 * j + 1 < leaves.length / 2 ^ k := by
      have h1 : j + 1 ≤ leaves.length / 2 ^ k / 2 := by omega
      have h2 : 2 * (j + 1) ≤ 2 * (leaves.length / 2 ^ k / 2) := by omega
      have h3 : 2 * (leaves.length / 2 ^ k / 2) ≤ leaves.length / 2 ^ k := by
        have := Nat.div_mul_le_self (leaves.length / 2 ^ k) 2
        omega
      omega
    rw [ih (2 * j) _ _ (by omega), ih (2 * j + 1) _ _ (by omega)]

/-- Appending one leaf rewrites rebuilt layer `k` as exactly the
pad-and-set operation that `MerkleTree::update` performs at that level. -/
theorem layerAt_append (H : List ℕ → ℕ) (leaves : List ℕ) (x : ℕ) (k : ℕ) :
    layerAt H (leaves ++ [x]) k =
      setAt (layerAt H leaves k) (leaves.length / 2 ^ k) (zerosF H k)
        ((layerAt H (leaves ++ [x]) k).getD (leaves.length / 2 ^ k) 0) := by
  have hlen1 : (layerAt H (leaves ++ [x]) k).length = leaves.length / 2 ^ k + 1 := by
    rw [layerAt_length H _ (by simp)]
    simp
  have hLle : (layerAt H leaves k).length ≤ leaves.length / 2 ^ k + 1 := by
    rcases Nat.eq_zero_or_pos leaves.length with h0 | hpos
    · rw [List.length_eq_zero.mpr (by rw [List.length_eq_zero] at h0; rw [h0]; exact layerAt_nil H k)]
      omega
    · rw [layerAt_length H _ (by omega)]
      have := Nat.div_le_div_right (c := 2 ^ k) (show leaves.length - 1 ≤ leaves.length by omega)
      omega
  have hLge : leaves.length / 2 ^ k ≤ (layerAt H leaves k).length := by
    rcases Nat.eq_zero_or_pos leaves.length with h0 | hpos
    · simp [h0]
    · rw [layerAt_length H _ (by omega)]
      exact div_le_pred_div_succ _ _ (by omega)
  apply List.ext_getElem
  · rw [hlen1, setAt_length]
    omega
  · intro j hj hj'
    rw [setAt_getElem _ _ _ _ _ hj']
    rcases eq_or_ne j (leaves.length / 2 ^ k) with rfl | hne
    · rw [if_pos rfl, List.getD_eq_getElem _ _ hj]
    · have hjlt : j < leaves.length / 2 ^ k := by omega
      rw [if_neg hne, if_pos (by omega)]
      rw [← List.getD_eq_getElem _ 0 hj]
      exact layerAt_getD_append H leaves x k j 0 0 hjlt

/-- Unfolding one level of `layerAt` at a valid entry. -/
theorem layerAt_succ_getD (H : List ℕ → ℕ) (l : List ℕ) (s m : ℕ)
    (hm : m < (layerAt H l (s + 1)).length) :
    (layerAt H l (s + 1)).getD m 0 =
      H [(layerAt H l s).getD (2 * m) (zerosF H s),
         (layerAt H l s).getD (2 * m + 1) (zerosF H s)] := by
  rw [List.getD_eq_getElem _ _ hm]
  exact hashLayer_getElem H (zerosF H s) (layerAt H l s) m hm

/-- Correctness of the `MerkleTree::update` mutation loop on a tree in
rebuilt form, for the append-at-the-end index used by `insert`: updating
position `n` of the leaves updates every layer to the rebuilt layer of the
extended leaf list. -/
theorem updateLoop_range' (H : List ℕ → ℕ) (leaves : List ℕ) (x : ℕ) :
    ∀ (r s : ℕ),
      updateLoop H s (leaves.length / 2 ^ s)
        ((layerAt H (leaves ++ [x]) s).getD (leaves.length / 2 ^ s) 0)
        ((List.range' s r).map (layerAt H leaves))
      = (List.range' s r).map (layerAt H (leaves ++ [x])) := by
  intro r
  induction r with
  | zero => intro s; rfl
  | succ r ih =>
    intro s
    show updateLoop H s _ _ (layerAt H leaves s :: (List.range' (s + 1) r).map (layerAt H leaves))
        = layerAt H (leaves ++ [x]) s :: (List.range' (s + 1) r).map (layerAt H (leaves ++ [x]))
    have hset : setAt (layerAt H leaves s) (leaves.length / 2 ^ s) (zerosF H s)
        ((layerAt H (leaves ++ [x]) s).getD (leaves.length / 2 ^ s) 0)
        = layerAt H (leaves ++ [x]) s := (layerAt_append H leaves x s).symm
    have hdiv : leaves.length / 2 ^ s / 2 = leaves.length / 2 ^ (s + 1) := by
      rw [Nat.div_div_eq_div_mul, pow_succ]
    have hlen : (layerAt H (leaves ++ [x]) (s + 1)).length
        = leaves.length / 2 ^ (s + 1) + 1 := by
      rw [layerAt_length H _ (by simp)]
      simp
    have hval : H [(layerAt H (leaves ++ [x]) s).getD
          (2 * (leaves.length / 2 ^ (s + 1))) (zerosF H s),
        (layerAt H (leaves ++ [x]) s).getD (2 * (leaves.length / 2 ^ (s + 1)) + 1) (zerosF H s)]
        = (layerAt H (leaves ++ [x]) (s + 1)).getD (leaves.length / 2 ^ (s + 1)) 0 :=
      (layerAt_succ_getD H (leaves ++ [x]) s _ (by omega)).symm
    simp only [updateLoop]
    rw [hset, hdiv, hval, ih (s + 1)]

theorem buildLayers_getD (H : List ℕ → ℕ) (levels : ℕ) (leaves : List ℕ) (lv : ℕ)
    (h : lv ≤ levels) :
    (buildLayers H levels leaves).getD lv [] = layerAt H leaves lv := by
  rw [buildLayers, List.getD_eq_getElem _ _ (by simp; omega)]
  simp

theorem buildLayers_headD (H : List ℕ → ℕ) (levels : ℕ) (leaves : List ℕ) :
    (buildLayers H levels leaves).headD [] = leaves := by
  rw [buildLayers, List.range_eq_range']
  rfl

/-- A single `insert` into a tree in rebuilt form appends the leaf and
leaves the tree in rebuilt form. -/
theorem insert_ok (H : List ℕ → ℕ) (L : ℕ) (leaves : List ℕ) (x : ℕ)
    (h : leaves.length < 2 ^ L) :
    MerkleTree.insert H ⟨L, buildLayers H L leaves⟩ x
      = .ok ⟨L, buildLayers H L (leaves ++ [x])⟩ := by
  have hx : (layerAt H (leaves ++ [x]) 0).getD (leaves.length / 2 ^ 0) 0 = x := by
    simp only [layerAt, pow_zero, Nat.div_one]
    rw [List.getD_eq_getElem _ _ (by simp)]
    exact List.getElem_concat_length leaves x _ rfl _
  rw [MerkleTree.insert, MerkleTree.update]
  simp only [buildLayers_headD, if_neg (by omega : ¬ 2 ^ L ≤ leaves.length)]
  have := updateLoop_range' H leaves x (L + 1) 0
  rw [hx, pow_zero, Nat.div_one] at this
  simp only [buildLayers, List.range_eq_range']
  rw [this]

/-- Sequentially inserting a list of leaves into a tree in rebuilt form
succeeds whenever the total stays within capacity, and produces the
rebuilt tree of the concatenated leaves. -/
theorem insertAll_ok (H : List ℕ → ℕ) (L : ℕ) :
    ∀ (xs pre : List ℕ), pre.length + xs.length ≤ 2 ^ L →
      insertAll H ⟨L, buildLayers H L pre⟩ xs = .ok ⟨L, buildLayers H L (pre ++ xs)⟩ := by
  intro xs
  induction xs with
  | nil => intro pre h; simp [insertAll]
  | cons x xs ih =>
    intro pre h
    rw [insertAll, insert_ok H L pre x (by simp at h; omega)]
    show insertAll H ⟨L, buildLayers H L (pre ++ [x])⟩ xs = _
    rw [ih (pre ++ [x]) (by simp at h ⊢; omega)]
    simp

theorem xor_one_of_even (m : ℕ) : (2 * m) ^^^ 1 = 2 * m + 1 := by
  apply Nat.eq_of_testBit_eq
  intro k
  simp only [Nat.testBit_xor]
  cases k with
  | zero => simp [Nat.testBit_zero, Nat.mul_add_mod]
  | succ k => simp [Nat.testBit_succ, Nat.mul_add_div]

theorem xor_one_of_odd (m : ℕ) : (2 * m + 1) ^^^ 1 = 2 * m := by
  apply Nat.eq_of_testBit_eq
  intro k
  simp only [Nat.testBit_xor]
  cases k with
  | zero => simp [Nat.testBit_zero, Nat.mul_add_mod]
  | succ k => simp [Nat.testBit_succ, Nat.mul_add_div]

theorem new_ok (H : List ℕ → ℕ) (L : ℕ) :
    MerkleTree.new H L = .ok ⟨L, buildLayers H L []⟩ := by
  rw [MerkleTree.new, MerkleTree.with_elements]
  simp

/-- A concrete, fully computable stand-in hash used to instantiate the
hash parameter in witnesses. -/
def sumH : List ℕ → ℕ := fun l => l.foldl (· + ·) 0

/-- Claim C3: for every list of leaves of length at most the capacity,
inserting them one at a time via `insert` into an empty tree produces the
same root (indeed the same tree) as `bulk_insert` of the whole list into an
empty tree, which rebuilds all upper layers. -/
theorem claim_C3 (H : List ℕ → ℕ) (L : ℕ) (leaves : List ℕ)
    (hcap : leaves.length ≤ 2 ^ L) :
    ∃ t₀ t₁ t₂,
      MerkleTree.new H L = .ok t₀ ∧
      insertAll H t₀ leaves = .ok t₁ ∧
      MerkleTree.bulk_insert H t₀ leaves = .ok t₂ ∧
      t₁ = t₂ ∧ MerkleTree.root H t₁ = MerkleTree.root H t₂ := by
  refine ⟨⟨L, buildLayers H L []⟩, ⟨L, buildLayers H L leaves⟩, ⟨L, buildLayers H L leaves⟩,
    new_ok H L, ?_, ?_, rfl, rfl⟩
  · simpa using insertAll_ok H L leaves [] (by simpa using hcap)
  · rw [MerkleTree.bulk_insert]
    simp only [buildLayers_headD]
    rw [if_neg (by simp; omega)]
    simp

/-- Witness for C3 at a concrete depth, leaf list and hash. -/
theorem claim_C3_witness :
    ∃ t₀ t₁ t₂,
      MerkleTree.new sumH 2 = .ok t₀ ∧
      insertAll sumH t₀ [3, 4, 5] = .ok t₁ ∧
      MerkleTree.bulk_insert sumH t₀ [3, 4, 5] = .ok t₂ ∧
      t₁ = t₂ ∧ MerkleTree.root sumH t₁ = MerkleTree.root sumH t₂ :=
  claim_C3 sumH 2 [3, 4, 5] (by decide)

/-- Claim C8: starting from an empty tree of depth `levels`, `capacity`
consecutive `insert` calls all succeed, and the next `insert` fails with
`MerkleProofError("Tree is full")`.  In the functional model the failing
call returns only the error — the tree value is untouched, mirroring the
source's early return before any mutation; the third conjunct records that
the leaf layer after the successful inserts is exactly the inserted list. -/
theorem claim_C8 (H : List ℕ → ℕ) (L : ℕ) (leaves : List ℕ) (x : ℕ)
    (hfull : leaves.length = 2 ^ L) :
    ∃ t₀ t,
      MerkleTree.new H L = .ok t₀ ∧
      insertAll H t₀ leaves = .ok t ∧
      t.layers.headD [] = leaves ∧
      MerkleTree.insert H t x = .error (.merkleProofError "Tree is full") := by
  refine ⟨⟨L, buildLayers H L []⟩, ⟨L, buildLayers H L leaves⟩,
    new_ok H L, ?_, buildLayers_headD H L leaves, ?_⟩
  · simpa using insertAll_ok H L leaves [] (by simpa using hfull.le)
  · rw [MerkleTree.insert]
    simp only [buildLayers_headD]
    rw [if_pos (by omega)]

/-- Witness for C8 at a concrete depth, leaf list and hash. -/
theorem claim_C8_witness :
    ∃ t₀ t,
      MerkleTree.new sumH 1 = .ok t₀ ∧
      insertAll sumH t₀ [7, 8] = .ok t ∧
      t.layers.headD [] = [7, 8] ∧
      MerkleTree.insert sumH t 9 = .error (.merkleProofError "Tree is full") :=
  claim_C8 sumH 1 [7, 8] 9 (by decide)

/-! ### Path verification machinery for claim C2 -/

/-- The running value of `MerklePath::verify` after `k` levels, for the
path of leaf `i` of a rebuilt tree: entry `i / 2^k` of layer `k`. -/
def pathCur (H : List ℕ → ℕ) (leaves : List ℕ) (i k : ℕ) : ℕ :=
  (layerAt H leaves k).getD (i / 2 ^ k) 0

/-- The sibling recorded by `MerkleTree::path` at level `lv` for leaf `i`. -/
def pathElemAt (H : List ℕ → ℕ) (leaves : List ℕ) (i lv : ℕ) : ℕ :=
  (layerAt H leaves lv).getD ((i / 2 ^ lv) ^^^ 1) (zerosF H lv)

/-- Generic invariant lemma for a left fold over a mapped index range. -/
theorem foldl_map_range'_inv {α β : Type} (f : β → α → β) (g : ℕ → α) (inv : ℕ → β) :
    ∀ (r s : ℕ), (∀ k, s ≤ k → k < s + r → f (inv k) (g k) = inv (k + 1)) →
      List.foldl f (inv s) ((List.range' s r).map g) = inv (s + r) := by
  intro r
  induction r with
  | zero => intro s _; rfl
  | succ r ih =>
    intro s h
    show List.foldl f (inv s) (g s :: (List.range' (s + 1) r).map g) = _
    rw [List.foldl_cons, h s le_rfl (by omega),
      ih (s + 1) (fun k hk1 hk2 => h k (by omega) (by omega))]
    congr 1
    omega

/-- One verification step starting from the running value at level `k`
with the recorded sibling reproduces the running value at level `k+1`. -/
theorem verifyStep_pathCur (H : List ℕ → ℕ) (leaves : List ℕ) (i k : ℕ)
    (hi : i < leaves.length) :
    verifyStep H (pathCur H leaves i k) (pathElemAt H leaves i k, (i / 2 ^ k) % 2)
      = pathCur H leaves i (k + 1) := by
  have hn : leaves.length ≠ 0 := by omega
  have hlenk : (layerAt H leaves k).length = (leaves.length - 1) / 2 ^ k + 1 :=
    layerAt_length H leaves hn k
  have hck_le : i / 2 ^ k ≤ (leaves.length - 1) / 2 ^ k :=
    Nat.div_le_div_right (by omega)
  have hck_lt : i / 2 ^ k < (layerAt H leaves k).length := by omega
  have hlen_succ : (layerAt H leaves (k + 1)).length = (leaves.length - 1) / 2 ^ (k + 1) + 1 :=
    layerAt_length H leaves hn (k + 1)
  have hm_le : i / 2 ^ (k + 1) ≤ (leaves.length - 1) / 2 ^ (k + 1) :=
    Nat.div_le_div_right (by omega)
  have hm_lt : i / 2 ^ (k + 1) < (layerAt H leaves (k + 1)).length := by omega
  have hdd : i / 2 ^ k / 2 = i / 2 ^ (k + 1) := by
    rw [Nat.div_div_eq_div_mul, pow_succ]
  have hmain := layerAt_succ_getD H leaves k (i / 2 ^ (k + 1)) hm_lt
  have hcur : pathCur H leaves i k = (layerAt H leaves k).getD (i / 2 ^ k) (zerosF H k) := by
    rw [pathCur, List.getD_eq_getElem _ _ hck_lt, List.getD_eq_getElem _ _ hck_lt]
  rcases Nat.mod_two_eq_zero_or_one (i / 2 ^ k) with hpar | hpar
  · have hstruct : i / 2 ^ k = 2 * (i / 2 ^ (k + 1)) := by
      have := Nat.div_add_mod (i / 2 ^ k) 2
      omega
    have hxor : (i / 2 ^ k) ^^^ 1 = 2 * (i / 2 ^ (k + 1)) + 1 := by
      rw [hstruct]
      exact xor_one_of_even _
    rw [verifyStep, if_pos hpar]
    show H [pathCur H leaves i k, pathElemAt H leaves i k] = _
    rw [hcur, pathElemAt, hxor, hstruct, pathCur, hmain]
  · have hstruct : i / 2 ^ k = 2 * (i / 2 ^ (k + 1)) + 1 := by
      have := Nat.div_add_mod (i / 2 ^ k) 2
      omega
    have hxor : (i / 2 ^ k) ^^^ 1 = 2 * (i / 2 ^ (k + 1)) := by
      rw [hstruct]
      exact xor_one_of_odd _
    rw [verifyStep, if_neg (by omega)]
    show H [pathElemAt H leaves i k, pathCur H leaves i k] = _
    rw [hcur, pathElemAt, hxor, hstruct, pathCur, hmain]

theorem headD_eq_getD (l : List ℕ) (d : ℕ) : l.headD d = l.getD 0 d := by
  cases l <;> rfl

/-- The root of a nonempty rebuilt tree is the single entry of the top
layer. -/
theorem root_rebuilt (H : List ℕ → ℕ) (L : ℕ) (leaves : List ℕ)
    (hne : leaves.length ≠ 0) :
    MerkleTree.root H ⟨L, buildLayers H L leaves⟩ = (layerAt H leaves L).getD 0 0 := by
  have hpos : 0 < (layerAt H leaves L).length := by
    rw [layerAt_length H leaves hne L]
    exact Nat.succ_pos _
  rw [MerkleTree.root]
  show (if (buildLayers H L leaves).getD L [] |>.isEmpty then _ else _) = _
  rw [buildLayers_getD H L leaves L le_rfl]
  rw [if_neg (show ¬ (layerAt H leaves L).isEmpty = true by
    rw [List.isEmpty_iff_length_eq_zero]; omega)]
  rw [headD_eq_getD]

/-- `MerkleTree::path` on a rebuilt tree returns the sibling/direction
lists described by `pathElemAt`. -/
theorem path_rebuilt (H : List ℕ → ℕ) (L : ℕ) (leaves : List ℕ) (i : ℕ)
    (hi : i < leaves.length) :
    MerkleTree.path H ⟨L, buildLayers H L leaves⟩ i
      = .ok ⟨(List.range L).map (pathElemAt H leaves i),
             (List.range L).map (fun lv => (i / 2 ^ lv) % 2)⟩ := by
  rw [MerkleTree.path]
  simp only [buildLayers_headD]
  rw [if_neg (show ¬ leaves.length ≤ i by omega)]
  have hmap : (List.range L).map
      (fun lv => ((buildLayers H L leaves).getD lv []).getD ((i / 2 ^ lv) ^^^ 1) (zerosF H lv))
      = (List.range L).map (pathElemAt H leaves i) := by
    apply List.map_congr_left
    intro lv hlv
    rw [List.mem_range] at hlv
    rw [buildLayers_getD H L leaves lv (by omega)]
    rfl
  rw [hmap]

theorem pathCur_zero (H : List ℕ → ℕ) (leaves : List ℕ) (i : ℕ) :
    pathCur H leaves i 0 = leaves.getD i 0 := by
  simp [pathCur, layerAt]

/-- `verify` accepts the recorded path of leaf `i` on a rebuilt tree. -/
theorem verify_rebuilt (H : List ℕ → ℕ) (L : ℕ) (leaves : List ℕ) (i : ℕ)
    (hi : i < leaves.length) (hcap : leaves.length ≤ 2 ^ L) :
    MerklePath.verify H
      ⟨(List.range L).map (pathElemAt H leaves i),
       (List.range L).map (fun lv => (i / 2 ^ lv) % 2)⟩
      (leaves.getD i 0) (MerkleTree.root H ⟨L, buildLayers H L leaves⟩) = true := by
  rw [MerklePath.verify]
  show ((((List.range L).map (pathElemAt H leaves i)).zip
      ((List.range L).map (fun lv => (i / 2 ^ lv) % 2))).foldl (verifyStep H)
      (leaves.getD i 0) == _) = true
  rw [List.zip_map', List.range_eq_range', ← pathCur_zero H leaves i,
    foldl_map_range'_inv (verifyStep H) _ (pathCur H leaves i) L 0
      (fun k _ _ => verifyStep_pathCur H leaves i k hi)]
  rw [Nat.zero_add, root_rebuilt H L leaves (by omega), pathCur,
    Nat.div_eq_of_lt (by omega)]
  exact beq_self_eq_true _

theorem map_range_set {α : Type} (f : ℕ → α) (L lv : ℕ) (e : α) (hlv : lv < L) :
    ((List.range L).map f).set lv e
      = (List.range L).map (fun k => if k = lv then e else f k) := by
  apply List.ext_getElem (by simp)
  intro j hj hj'
  simp only [List.length_set, List.length_map, List.length_range] at hj
  rcases eq_or_ne j lv with rfl | hne
  · rw [List.getElem_set_self, List.getElem_map, List.getElem_range, if_pos rfl]
  · rw [List.getElem_set_ne (Ne.symm hne)]
    simp [hne]

/-- With a collision-free hash, distinct running values stay distinct
through the remaining verification steps. -/
theorem foldl_verifyStep_ne (H : List ℕ → ℕ)
    (hinj : ∀ a b c d, H [a, b] = H [c, d] → a = c ∧ b = d) :
    ∀ (l : List (ℕ × ℕ)) (c₁ c₂ : ℕ), c₁ ≠ c₂ →
      List.foldl (verifyStep H) c₁ l ≠ List.foldl (verifyStep H) c₂ l := by
  intro l
  induction l with
  | nil => intro c₁ c₂ h; exact h
  | cons p rest ih =>
    intro c₁ c₂ h
    rw [List.foldl_cons, List.foldl_cons]
    apply ih
    rw [verifyStep, verifyStep]
    split
    · intro heq; exact h (hinj _ _ _ _ heq).1
    · intro heq; exact h (hinj _ _ _ _ heq).2

/-- With a collision-free hash, corrupting the recorded sibling at any
single level makes `verify` reject. -/
theorem verify_corrupt (H : List ℕ → ℕ)
    (hinj : ∀ a b c d, H [a, b] = H [c, d] → a = c ∧ b = d)
    (L : ℕ) (leaves : List ℕ) (i : ℕ)
    (hi : i < leaves.length) (hcap : leaves.length ≤ 2 ^ L)
    (lv : ℕ) (hlv : lv < L) (e : ℕ) (hne : e ≠ pathElemAt H leaves i lv) :
    MerklePath.verify H
      ⟨((List.range L).map (pathElemAt H leaves i)).set lv e,
       (List.range L).map (fun k => (i / 2 ^ k) % 2)⟩
      (leaves.getD i 0) (MerkleTree.root H ⟨L, buildLayers H L leaves⟩) = false := by
  rw [MerklePath.verify]
  show (((((List.range L).map (pathElemAt H leaves i)).set lv e).zip
      ((List.range L).map (fun k => (i / 2 ^ k) % 2))).foldl (verifyStep H)
      (leaves.getD i 0) == MerkleTree.root H ⟨L, buildLayers H L leaves⟩) = false
  rw [map_range_set _ L lv e hlv, List.zip_map', List.range_eq_range']
  have hsplit : List.range' 0 L = List.range' 0 lv ++ lv :: List.range' (lv + 1) (L - lv - 1) := by
    have h1 := List.range'_append 0 lv (L - lv) 1
    have h2 : (L - lv) + lv = L := by omega
    have h3 : 0 + 1 * lv = lv := by omega
    rw [h2, h3] at h1
    rw [← h1]
    congr 1
    have h4 : L - lv = (L - lv - 1) + 1 := by omega
    rw [h4]
    rfl
  rw [hsplit, List.map_append, List.foldl_append]
  have hpre : (List.range' 0 lv).map
      (fun k => ((if k = lv then e else pathElemAt H leaves i k), (i / 2 ^ k) % 2))
      = (List.range' 0 lv).map (fun k => (pathElemAt H leaves i k, (i / 2 ^ k) % 2)) := by
    apply List.map_congr_left
    intro k hk
    rw [List.mem_range'] at hk
    obtain ⟨j, hj, rfl⟩ := hk
    rw [if_neg (by omega)]
  have hsuf : (List.range' (lv + 1) (L - lv - 1)).map
      (fun k => ((if k = lv then e else pathElemAt H leaves i k), (i / 2 ^ k) % 2))
      = (List.range' (lv + 1) (L - lv - 1)).map
        (fun k => (pathElemAt H leaves i k, (i / 2 ^ k) % 2)) := by
    apply List.map_congr_left
    intro k hk
    rw [List.mem_range'] at hk
    obtain ⟨j, hj, rfl⟩ := hk
    rw [if_neg (by omega)]
  rw [hpre, ← pathCur_zero H leaves i,
    foldl_map_range'_inv (verifyStep H) _ (pathCur H leaves i) lv 0
      (fun k _ _ => verifyStep_pathCur H leaves i k hi),
    Nat.zero_add, List.map_cons, List.foldl_cons, hsuf]
  simp only [if_pos rfl]
  have hbad : verifyStep H (pathCur H leaves i lv) (e, (i / 2 ^ lv) % 2)
      ≠ pathCur H leaves i (lv + 1) := by
    intro hEq
    rw [← verifyStep_pathCur H leaves i lv hi] at hEq
    revert hEq
    rw [verifyStep, verifyStep]
    split
    · intro heq; exact hne (hinj _ _ _ _ heq).2
    · intro heq; exact hne (hinj _ _ _ _ heq).1
  have hsufval : List.foldl (verifyStep H) (pathCur H leaves i (lv + 1))
      ((List.range' (lv + 1) (L - lv - 1)).map
        (fun k => (pathElemAt H leaves i k, (i / 2 ^ k) % 2)))
      = pathCur H leaves i L := by
    rw [foldl_map_range'_inv (verifyStep H) _ (pathCur H leaves i) (L - lv - 1) (lv + 1)
      (fun k _ _ => verifyStep_pathCur H leaves i k hi)]
    congr 1
    omega
  have hroot : MerkleTree.root H ⟨L, buildLayers H L leaves⟩ = pathCur H leaves i L := by
    rw [root_rebuilt H L leaves (by omega), pathCur, Nat.div_eq_of_lt (by omega)]
  rw [beq_eq_false_iff_ne, hroot, ← hsufval]
  exact foldl_verifyStep_ne H hinj _ _ _ hbad

/-- Claim C2: for every depth `L` and every sequence of at most `2^L`
leaves inserted in order into a fresh tree, every recorded path verifies
against the root, and — assuming the hash is collision-free on pairs —
replacing any single recorded sibling with a different value makes
verification fail. -/
theorem claim_C2 (H : List ℕ → ℕ)
    (hinj : ∀ a b c d, H [a, b] = H [c, d] → a = c ∧ b = d)
    (L : ℕ) (leaves : List ℕ) (hcap : leaves.length ≤ 2 ^ L)
    (i : ℕ) (hi : i < leaves.length) :
    ∃ t₀ t p,
      MerkleTree.new H L = .ok t₀ ∧
      insertAll H t₀ leaves = .ok t ∧
      MerkleTree.path H t i = .ok p ∧
      MerklePath.verify H p (leaves.getD i 0) (MerkleTree.root H t) = true ∧
      (∀ lv, lv < L → ∀ e, e ≠ p.path_elements.getD lv 0 →
        MerklePath.verify H ⟨p.path_elements.set lv e, p.path_indices⟩
          (leaves.getD i 0) (MerkleTree.root H t) = false) := by
  refine ⟨⟨L, buildLayers H L []⟩, ⟨L, buildLayers H L leaves⟩,
    ⟨(List.range L).map (pathElemAt H leaves i),
     (List.range L).map (fun lv => (i / 2 ^ lv) % 2)⟩,
    new_ok H L, by simpa using insertAll_ok H L leaves [] (by simpa using hcap),
    path_rebuilt H L leaves i hi, verify_rebuilt H L leaves i hi hcap, ?_⟩
  intro lv hlv e hne
  have hgetD : ((List.range L).map (pathElemAt H leaves i)).getD lv 0
      = pathElemAt H leaves i lv := by
    rw [List.getD_eq_getElem _ _ (by simp; omega)]
    simp
  exact verify_corrupt H hinj L leaves i hi hcap lv hlv e (by rwa [hgetD] at hne)

/-- A concrete collision-free-on-pairs hash used to witness C2: the Cantor
pairing function applied to the first two entries. -/
def pairH : List ℕ → ℕ := fun l => Nat.pair (l.headD 0) (l.tail.headD 0)

theorem pairH_inj (a b c d : ℕ) (h : pairH [a, b] = pairH [c, d]) : a = c ∧ b = d := by
  simpa [pairH, Nat.pair_eq_pair] using h

/-- Witness for C2 at a concrete depth, leaf list, index and hash. -/
theorem claim_C2_witness :
    ∃ t₀ t p,
      MerkleTree.new pairH 2 = .ok t₀ ∧
      insertAll pairH t₀ [5, 9, 12] = .ok t ∧
      MerkleTree.path pairH t 1 = .ok p ∧
      MerklePath.verify pairH p ([5, 9, 12].getD 1 0) (MerkleTree.root pairH t) = true ∧
      (∀ lv, lv < 2 → ∀ e, e ≠ p.path_elements.getD lv 0 →
        MerklePath.verify pairH ⟨p.path_elements.set lv e, p.path_indices⟩
          ([5, 9, 12].getD 1 0) (MerkleTree.root pairH t) = false) :=
  claim_C2 pairH pairH_inj 2 [5, 9, 12] (by decide) 1 (by decide)

/-! ## Keypair and UTXO model (`src/keypair.rs`, `src/utxo.rs`)

Field values are `ℕ`.  `poseidon_hash_strings` parses decimal strings that
are always the decimal rendering of a `BigUint`, so string plumbing drops
out and the hash is a function on `List ℕ`. -/

/-- `ZkKeypair` (keypair.rs lines 22-27): a private field element and the
cached public key `Hash([private])`. -/
structure ZkKeypair where
  privkey : ℕ
  pubkey : ℕ
  deriving DecidableEq, Repr

/-- `ZkKeypair::from_bytes` (keypair.rs lines 58-63) with the raw
big-endian byte value given as a number and the field size `fs` a
parameter: reduce mod the field, then derive the public key. -/
def ZkKeypair.from_bytes (H : List ℕ → ℕ) (fs : ℕ) (raw : ℕ) : ZkKeypair :=
  ⟨raw % fs, H [raw % fs]⟩

/-- `ZkKeypair::sign` (keypair.rs lines 100-111):
`Hash([privkey, commitment, merkle_path])`. -/
def ZkKeypair.sign (H : List ℕ → ℕ) (kp : ZkKeypair) (commitment merklePath : ℕ) : ℕ :=
  H [kp.privkey, commitment, merklePath]

/-- A mint address that parses successfully: either the SOL sentinel
string `"11111111111111111111111111111112"`, or an SPL mint whose base58
decoding is the given 32-byte list.  Unparseable mint strings (the
`InvalidKeypair` error path of `get_mint_address_field`) are outside this
type, matching the claims' valid-mint hypothesis. -/
inductive MintAddress where
  | sol
  | spl (bytes : List ℕ)
  deriving DecidableEq, Repr

/-- `BigUint::from_bytes_be` on a list of byte values. -/
def bytesToNatBE (bytes : List ℕ) : ℕ :=
  bytes.foldl (fun acc b => acc * 256 + b) 0

/-- `Utxo::get_mint_address_field` (utxo.rs lines 152-166).  For SOL the
sentinel string is returned as-is and later parsed as the decimal number
11111111111111111111111111111112 by `poseidon_hash_strings`; for SPL the
first 31 bytes of the decoded mint are taken big-endian. -/
def get_mint_address_field : MintAddress → ℕ
  | .sol => 11111111111111111111111111111112
  | .spl bytes => bytesToNatBE (bytes.take 31)

/-- `UtxoVersion` (utxo.rs lines 16-26); the `Default` impl is `V2`. -/
inductive UtxoVersion where
  | v1
  | v2
  deriving DecidableEq, Repr

/-- `Utxo` (utxo.rs lines 29-48). -/
structure Utxo where
  amount : ℕ
  blinding : ℕ
  keypair : ZkKeypair
  index : ℕ
  mint_address : MintAddress
  version : UtxoVersion
  deriving DecidableEq, Repr

/-- `Utxo::new` (utxo.rs lines 62-83).  `rand` is the thread-RNG draw
`rng.gen::<u64>()`, modelled as an arbitrary number reduced to the u64
range; the blinding is that value `% 1_000_000_000`.  A missing mint
address defaults to the SOL sentinel, a missing version to V2. -/
def Utxo.new (rand : ℕ) (amount : ℕ) (keypair : ZkKeypair) (index : ℕ)
    (mint_address : Option MintAddress) (version : Option UtxoVersion) : Utxo :=
  { amount := amount
    blinding := rand % 2 ^ 64 % 1000000000
    keypair := keypair
    index := index
    mint_address := mint_address.getD .sol
    version := version.getD .v2 }

/-- `Utxo::dummy` (utxo.rs lines 107-109): a zero-value V2 UTXO at index 0. -/
def Utxo.dummy (rand : ℕ) (keypair : ZkKeypair) (mint_address : Option MintAddress) : Utxo :=
  Utxo.new rand 0 keypair 0 mint_address (some .v2)

/-- `Utxo::amount_u64` (utxo.rs lines 112-115): `to_u64().unwrap_or(0)` —
the amount when it fits in a u64, otherwise `0`. -/
def Utxo.amount_u64 (u : Utxo) : ℕ :=
  if u.amount < 2 ^ 64 then u.amount else 0

/-- `Utxo::get_commitment` (utxo.rs lines 125-134):
`Poseidon(amount, pubkey, blinding, mintAddressField)`. -/
def Utxo.get_commitment (H : List ℕ → ℕ) (u : Utxo) : ℕ :=
  H [u.amount, u.keypair.pubkey, u.blinding, get_mint_address_field u.mint_address]

/-- `Utxo::get_nullifier` (utxo.rs lines 140-146):
`Poseidon(commitment, index, sign(commitment, index))`. -/
def Utxo.get_nullifier (H : List ℕ → ℕ) (u : Utxo) : ℕ :=
  H [u.get_commitment H, u.index, u.keypair.sign H (u.get_commitment H) u.index]

/-- `Balance` (utxo.rs lines 230-234). -/
structure Balance where
  lamports : ℕ
  deriving DecidableEq, Repr

/-- `get_balance_from_utxos` (utxo.rs lines 271-274): `sum::<u64>()` over
`amount_u64`.  u64 addition wraps (release-mode semantics), modelled by
the explicit `% 2^64` on each addition. -/
def get_balance_from_utxos (utxos : List Utxo) : Balance :=
  ⟨(utxos.map Utxo.amount_u64).foldl (fun a b => (a + b) % 2 ^ 64) 0⟩

/-- Claim C1: for every UTXO with a valid mint address, `get_commitment`
returns `Hash(amount, owner public key, blinding, asset_field(mint))` and
`get_nullifier` returns `Hash(commitment, index, s)` with
`s = sign(private, commitment, index) = Hash(private, commitment, index)`;
both are deterministic — two calls on the same UTXO yield identical
values. -/
theorem claim_C1 (H : List ℕ → ℕ) (u : Utxo) :
    Utxo.get_commitment H u
      = H [u.amount, u.keypair.pubkey, u.blinding, get_mint_address_field u.mint_address] ∧
    Utxo.get_nullifier H u
      = H [Utxo.get_commitment H u, u.index,
           H [u.keypair.privkey, Utxo.get_commitment H u, u.index]] ∧
    ZkKeypair.sign H u.keypair (Utxo.get_commitment H u) u.index
      = H [u.keypair.privkey, Utxo.get_commitment H u, u.index] ∧
    Utxo.get_commitment H u = Utxo.get_commitment H u ∧
    Utxo.get_nullifier H u = Utxo.get_nullifier H u :=
  ⟨rfl, rfl, rfl, rfl, rfl⟩

/-- Claim C9: every UTXO constructed by `Utxo::new` (and hence
`Utxo::dummy`), for every outcome of the random number generator, has a
blinding factor strictly below 1,000,000,000. -/
theorem claim_C9 (rand amount : ℕ) (keypair : ZkKeypair) (index : ℕ)
    (mint : Option MintAddress) (version : Option UtxoVersion)
    (rand₂ : ℕ) (keypair₂ : ZkKeypair) (mint₂ : Option MintAddress) :
    (Utxo.new rand amount keypair index mint version).blinding < 1000000000 ∧
    (Utxo.dummy rand₂ keypair₂ mint₂).blinding < 1000000000 :=
  ⟨Nat.mod_lt _ (by norm_num), Nat.mod_lt _ (by norm_num)⟩

theorem foldl_add_mod (M : ℕ) (hM : 0 < M) :
    ∀ (l : List ℕ) (acc : ℕ), acc < M →
      l.foldl (fun a b => (a + b) % M) acc = (acc + l.sum) % M := by
  intro l
  induction l with
  | nil => intro acc h; simp [Nat.mod_eq_of_lt h]
  | cons b rest ih =>
    intro acc h
    rw [List.foldl_cons, ih ((acc + b) % M) (Nat.mod_lt _ hM), List.sum_cons, Nat.mod_add_mod]
    congr 1
    omega

/-- Amended claim C10: `get_balance_from_utxos` returns the sum of
`amount_u64` over the list reduced mod `2^64` (wrapping u64 addition); it
equals the exact sum whenever that sum fits in a u64, and `amount_u64`
maps an amount that fits in a u64 to itself and anything larger to `0`. -/
theorem claim_C10_amended (utxos : List Utxo) :
    (get_balance_from_utxos utxos).lamports = (utxos.map Utxo.amount_u64).sum % 2 ^ 64 ∧
    (∀ u : Utxo, Utxo.amount_u64 u = if u.amount < 2 ^ 64 then u.amount else 0) ∧
    ((utxos.map Utxo.amount_u64).sum < 2 ^ 64 →
      (get_balance_from_utxos utxos).lamports = (utxos.map Utxo.amount_u64).sum) := by
  have h := foldl_add_mod (2 ^ 64) (by norm_num) (utxos.map Utxo.amount_u64) 0 (by norm_num)
  rw [Nat.zero_add] at h
  refine ⟨h, fun _ => rfl, fun hlt => ?_⟩
  rw [show (get_balance_from_utxos utxos).lamports
      = (utxos.map Utxo.amount_u64).sum % 2 ^ 64 from h]
  exact Nat.mod_eq_of_lt hlt

/-- A concrete keypair and maximal-u64 UTXO for the C10 witnesses. -/
def kp0 : ZkKeypair := ⟨0, 0⟩

def u64maxUtxo : Utxo := ⟨2 ^ 64 - 1, 0, kp0, 0, .sol, .v2⟩

/-- Witness for the amended C10 at a concrete singleton list. -/
theorem claim_C10_witness :
    ([u64maxUtxo].map Utxo.amount_u64).sum < 2 ^ 64 ∧
    (get_balance_from_utxos [u64maxUtxo]).lamports = ([u64maxUtxo].map Utxo.amount_u64).sum :=
  ⟨by decide, (claim_C10_amended [u64maxUtxo]).2.2 (by decide)⟩

/-- Counterexample to C10 as stated: two UTXOs of `u64::MAX` lamports each
make the wrapping u64 sum differ from the mathematical sum of
`amount_u64`. -/
theorem claim_C10_counterexample :
    (get_balance_from_utxos [u64maxUtxo, u64maxUtxo]).lamports
      ≠ ([u64maxUtxo, u64maxUtxo].map Utxo.amount_u64).sum := by
  decide

/-! ## Public amount arithmetic (`src/utils.rs` lines 198-217)

The `FIELD_SIZE` constant lives in `src/constants.rs`, which is not part
of the provided sources; per the spec it is a fixed large prime, so it is
taken here as a parameter `fs` constrained only as each statement needs.
`BigUint` subtraction `FIELD_SIZE - abs` requires `abs ≤ FIELD_SIZE`
(it panics otherwise); the hypotheses below keep all subtractions in
range, where `ℕ` subtraction agrees with `BigUint` subtraction. -/

/-- `calculate_public_amount` (utils.rs lines 198-217). -/
def calculate_public_amount (fs : ℕ) (ext_amount : ℤ) (fee : ℕ) : ℕ :=
  (if fee ≤ (if 0 ≤ ext_amount then ext_amount.toNat else fs - (-ext_amount).toNat)
   then (if 0 ≤ ext_amount then ext_amount.toNat else fs - (-ext_amount).toNat) - fee
   else fs - (fee - (if 0 ≤ ext_amount then ext_amount.toNat else fs - (-ext_amount).toNat)))
  % fs

/-- Claim C5: `calculate_public_amount(1000, 100) = 900`;
`calculate_public_amount(-1000, 100) = FIELD_SIZE - 1100`; and in general
for negative `ext_amount` the result is `(ext_amount - fee) mod fs`
(field wraparound). -/
theorem claim_C5 (fs : ℕ) (hfs : 1100 < fs) (ext : ℤ) (fee : ℕ) :
    calculate_public_amount fs 1000 100 = 900 ∧
    calculate_public_amount fs (-1000) 100 = fs - 1100 ∧
    (ext < 0 → ext.natAbs + fee < fs →
      (calculate_public_amount fs ext fee : ℤ) = (ext - fee) % fs) := by
  refine ⟨?_, ?_, ?_⟩
  · have h : calculate_public_amount fs 1000 100 = 900 % fs := by
      simp only [calculate_public_amount]
      norm_num
      rw [show Int.toNat 1000 = 1000 from rfl]
    rw [h, Nat.mod_eq_of_lt (by omega)]
  · simp only [calculate_public_amount]
    norm_num
    rw [show Int.toNat 1000 = 1000 from rfl]
    rw [if_pos (show 100 ≤ fs - 1000 by omega), Nat.mod_eq_of_lt (by omega)]
    omega
  · intro hneg hlt
    obtain ⟨a, rfl⟩ : ∃ a : ℕ, ext = -(a : ℤ) := ⟨ext.natAbs, by omega⟩
    have ha : 0 < a := by omega
    have hlt' : a + fee < fs := by
      have : (-(a : ℤ)).natAbs = a := by simp
      omega
    simp only [calculate_public_amount]
    rw [if_neg (show ¬ (0 : ℤ) ≤ -(a : ℤ) by omega)]
    rw [show (-(-(a : ℤ))).toNat = a by omega]
    rw [if_pos (show fee ≤ fs - a by omega)]
    rw [Nat.mod_eq_of_lt (show fs - a - fee < fs by omega)]
    have h1 : -(a : ℤ) - fee = ((fs - (a + fee) : ℕ) : ℤ) + fs * (-1) := by
      push_cast [show a + fee ≤ fs by omega]
      ring
    rw [h1, Int.add_mul_emod_self_left,
      Int.emod_eq_of_lt (by positivity) (by omega)]
    omega

/-- Witness for C5 at concrete field size, amount and fee. -/
theorem claim_C5_witness :
    1100 < 2000 ∧ ((-5 : ℤ) < 0) ∧ ((-5 : ℤ).natAbs + 3 < 2000) ∧
    (calculate_public_amount 2000 (-5) 3 : ℤ) = ((-5 : ℤ) - 3) % 2000 :=
  ⟨by norm_num, by norm_num, by norm_num,
    (claim_C5 2000 (by norm_num) (-5) 3).2.2 (by norm_num) (by norm_num)⟩

/-! ## Versioned encryption (`src/encryption.rs`)

Byte strings are `List ℕ`.  The AES-256-GCM primitive from the `aes_gcm`
crate is an external collaborator, abstracted as a pair of parameters
`aesEnc`/`aesDec`; its documented contract — the returned ciphertext is
the encrypted payload with a 16-byte authentication tag appended, and
decryption under the same key and nonce recovers the payload — enters the
round-trip theorem as explicit hypotheses.  The fresh random 12-byte GCM
nonce drawn inside `encrypt` is likewise passed in as `iv`.  The V1
legacy scheme (AES-128-CTR + HMAC, lines 174-214) is reached only when
the version tag does not match and is abstracted as a parameter
`decV1`.  The service's two cached UTXO private-key strings are not used
by any code path below and are omitted from the state. -/

/-- The 8-byte V2 version tag (encryption.rs line 20). -/
def ENCRYPTION_VERSION_V2 : List ℕ := [0, 0, 0, 0, 0, 0, 0, 2]

/-- `EncryptionService` key state (encryption.rs lines 31-43). -/
structure EncryptionService where
  encryption_key_v1 : Option (List ℕ)
  encryption_key_v2 : Option (List ℕ)
  deriving DecidableEq, Repr

/-- `EncryptionService::encrypt` (lines 99-129): V2 format
`version(8) ++ iv(12) ++ ciphertext-with-auth-tag`, failing when no V2
key has been derived. -/
def EncryptionService.encrypt (aesEnc : List ℕ → List ℕ → List ℕ → List ℕ)
    (iv : List ℕ) (s : EncryptionService) (data : List ℕ) : Option (List ℕ) :=
  match s.encryption_key_v2 with
  | none => none
  | some key => some (ENCRYPTION_VERSION_V2 ++ iv ++ aesEnc key iv data)

/-- `EncryptionService::decrypt_v2` (lines 146-171): length check, then
split off the 12-byte nonce at offset 8 and authenticated-decrypt the
rest. -/
def EncryptionService.decrypt_v2 (aesDec : List ℕ → List ℕ → List ℕ → Option (List ℕ))
    (s : EncryptionService) (d : List ℕ) : Option (List ℕ) :=
  match s.encryption_key_v2 with
  | none => none
  | some key =>
    if d.length < 8 + 12 + 16 then none
    else aesDec key ((d.drop 8).take 12) (d.drop 20)

/-- `EncryptionService::decrypt` (lines 132-143): V2 when the first 8
bytes equal the version tag, V1 otherwise. -/
def EncryptionService.decrypt (aesDec : List ℕ → List ℕ → List ℕ → Option (List ℕ))
    (decV1 : EncryptionService → List ℕ → Option (List ℕ))
    (s : EncryptionService) (d : List ℕ) : Option (List ℕ) :=
  if d.length < 8 then none
  else if d.take 8 = ENCRYPTION_VERSION_V2 then s.decrypt_v2 aesDec d
  else decV1 s d

/-- Claim C4: once a V2 key is derived, `encrypt(p)` produces
`version-tag(8, seven zero bytes then 0x02) ++ nonce(12) ++ ciphertext
with 16-byte auth tag`, and `decrypt(encrypt(p)) = p`.  The hypotheses
`hlen`/`hrt` are the AES-GCM crate's contract. -/
theorem claim_C4 (aesEnc : List ℕ → List ℕ → List ℕ → List ℕ)
    (aesDec : List ℕ → List ℕ → List ℕ → Option (List ℕ))
    (decV1 : EncryptionService → List ℕ → Option (List ℕ))
    (key iv : List ℕ) (s : EncryptionService) (p : List ℕ)
    (hkey : s.encryption_key_v2 = some key)
    (hiv : iv.length = 12)
    (hlen : ∀ k n d, (aesEnc k n d).length = d.length + 16)
    (hrt : ∀ k n d, aesDec k n (aesEnc k n d) = some d) :
    ∃ c, s.encrypt aesEnc iv p = some c ∧
      c.take 8 = [0, 0, 0, 0, 0, 0, 0, 2] ∧
      (c.drop 8).take 12 = iv ∧
      c.drop 20 = aesEnc key iv p ∧
      c.length = 8 + 12 + (p.length + 16) ∧
      s.decrypt aesDec decV1 c = some p := by
  refine ⟨ENCRYPTION_VERSION_V2 ++ iv ++ aesEnc key iv p, ?_, ?_, ?_, ?_, ?_, ?_⟩
  · rw [EncryptionService.encrypt, hkey]
  · rw [List.append_assoc]
    exact List.take_left' rfl
  · rw [List.append_assoc,
      List.drop_left' (show ENCRYPTION_VERSION_V2.length = 8 from rfl)]
    exact List.take_left' hiv
  · have h20 : (ENCRYPTION_VERSION_V2 ++ iv).length = 20 := by
      simp [ENCRYPTION_VERSION_V2, hiv]
    exact List.drop_left' h20
  · simp [ENCRYPTION_VERSION_V2, hiv, hlen]
    omega
  · have hclen : (ENCRYPTION_VERSION_V2 ++ iv ++ aesEnc key iv p).length
        = 8 + 12 + (p.length + 16) := by
      simp [ENCRYPTION_VERSION_V2, hiv, hlen]
      omega
    rw [EncryptionService.decrypt, if_neg (by omega)]
    rw [if_pos (by rw [List.append_assoc]; exact List.take_left' rfl)]
    rw [EncryptionService.decrypt_v2, hkey]
    show (if _ then none else aesDec key _ _) = some p
    rw [if_neg (by omega)]
    rw [List.append_assoc,
      List.drop_left' (show ENCRYPTION_VERSION_V2.length = 8 from rfl),
      List.take_left' hiv]
    have h20 : (ENCRYPTION_VERSION_V2 ++ iv).length = 20 := by
      simp [ENCRYPTION_VERSION_V2, hiv]
    rw [← List.append_assoc, List.drop_left' h20]
    exact hrt key iv p

/-- A concrete AES-GCM stand-in satisfying the crate contract, used by the
C4 witness: append 16 zero bytes as the tag; strip them on decryption. -/
def mockAesEnc : List ℕ → List ℕ → List ℕ → List ℕ :=
  fun _ _ d => d ++ List.replicate 16 0

def mockAesDec : List ℕ → List ℕ → List ℕ → Option (List ℕ) :=
  fun _ _ c => if 16 ≤ c.length then some (c.take (c.length - 16)) else none

theorem mockAes_roundtrip (k n d : List ℕ) : mockAesDec k n (mockAesEnc k n d) = some d := by
  rw [mockAesEnc, mockAesDec, if_pos (by simp)]
  congr 1
  have h : (d ++ List.replicate 16 0).length - 16 = d.length := by simp
  rw [h]
  exact List.take_left' rfl

/-- Witness for C4 at a concrete key, nonce and payload. -/
theorem claim_C4_witness :
    ∃ c, EncryptionService.encrypt mockAesEnc (List.replicate 12 1)
        ⟨none, some (List.replicate 32 7)⟩ [104, 105] = some c ∧
      c.take 8 = [0, 0, 0, 0, 0, 0, 0, 2] ∧
      (c.drop 8).take 12 = List.replicate 12 1 ∧
      c.drop 20 = mockAesEnc (List.replicate 32 7) (List.replicate 12 1) [104, 105] ∧
      c.length = 8 + 12 + ([104, 105].length + 16) ∧
      EncryptionService.decrypt mockAesDec (fun _ _ => none)
        ⟨none, some (List.replicate 32 7)⟩ c = some [104, 105] :=
  claim_C4 mockAesEnc mockAesDec (fun _ _ => none) (List.replicate 32 7)
    (List.replicate 12 1) ⟨none, some (List.replicate 32 7)⟩ [104, 105]
    rfl (by simp) (fun k n d => by simp [mockAesEnc]) mockAes_roundtrip

/-! ## UTXO scanner spent filtering (`src/get_utxos.rs`)

The scanner's network layers (relayer paging, trial decryption, index
resolution) are abstracted: a run processes a list of pages, each page
being the UTXOs that decrypted successfully in that loop iteration.  The
ledger is abstracted by two parameters: `findPda`, the deterministic
program-derived-address function `Pubkey::find_program_address` on a seed
list, and `ledger`, account existence on the chain
(`get_multiple_accounts` returning `Some`). -/

/-- The byte string `"nullifier0"` (ASCII). -/
def nullifier0Seed : List ℕ := [110, 117, 108, 108, 105, 102, 105, 101, 114, 48]

/-- The byte string `"nullifier1"` (ASCII). -/
def nullifier1Seed : List ℕ := [110, 117, 108, 108, 105, 102, 105, 101, 114, 49]

/-- `string_to_nullifier_bytes` (get_utxos.rs lines 347-359): the
little-endian bytes of the nullifier truncated to 32 bytes (i.e. the
value mod `2^256`), zero-padded, then reversed into big-endian order. -/
def string_to_nullifier_bytes (n : ℕ) : List ℕ :=
  ((List.range 32).map (fun i => n % 2 ^ 256 / 2 ^ (8 * i) % 256)).reverse

/-- `are_utxos_spent` (get_utxos.rs lines 306-338): derive the two
nullifier PDAs per UTXO, batch-query account existence, and mark a UTXO
spent when any of its PDA accounts exists. -/
def are_utxos_spent (H : List ℕ → ℕ) (findPda : List (List ℕ) → ℕ) (ledger : ℕ → Bool)
    (utxos : List Utxo) : List Bool :=
  let allPdas := utxos.enum.flatMap (fun iu =>
    [(iu.1, findPda [nullifier0Seed, string_to_nullifier_bytes (iu.2.get_nullifier H)]),
     (iu.1, findPda [nullifier1Seed, string_to_nullifier_bytes (iu.2.get_nullifier H)])])
  let accounts := allPdas.map (fun ip => ledger ip.2)
  (allPdas.zip accounts).foldl
    (fun flags ipa => if ipa.2 then flags.set ipa.1.1 true else flags)
    (List.replicate utxos.length false)

/-- The spent/zero filtering of one scanner loop iteration
(get_utxos.rs lines 103-126): keep the positive-amount UTXOs, query their
spent flags, and collect the unspent ones in order. -/
def processPage (H : List ℕ → ℕ) (findPda : List (List ℕ) → ℕ) (ledger : ℕ → Bool)
    (fetched : List Utxo) : List Utxo :=
  let nonZero := fetched.filter (fun u => decide (0 < u.amount_u64))
  let flags := are_utxos_spent H findPda ledger nonZero
  (nonZero.zip flags).foldl (fun acc us => if us.2 then acc else acc ++ [us.1]) []

/-- The UTXOs returned by one full `get_utxos` run over the given pages
of successfully decrypted UTXOs. -/
def getUtxosRun (H : List ℕ → ℕ) (findPda : List (List ℕ) → ℕ) (ledger : ℕ → Bool)
    (pages : List (List Utxo)) : List Utxo :=
  (pages.map (processPage H findPda ledger)).flatten

theorem spentFold_length (l : List ((ℕ × ℕ) × Bool)) :
    ∀ flags : List Bool,
      (l.foldl (fun fl ipa => if ipa.2 then fl.set ipa.1.1 true else fl) flags).length
        = flags.length := by
  induction l with
  | nil => intro flags; rfl
  | cons p rest ih =>
    intro flags
    rw [List.foldl_cons, ih]
    split <;> simp

/-- Once a spent flag is set it stays set through the rest of the fold. -/
theorem spentFold_mono (l : List ((ℕ × ℕ) × Bool)) :
    ∀ (flags : List Bool) (i : ℕ), flags.getD i false = true →
      (l.foldl (fun fl ipa => if ipa.2 then fl.set ipa.1.1 true else fl) flags).getD i false
        = true := by
  induction l with
  | nil => intro flags i h; exact h
  | cons p rest ih =>
    intro flags i h
    have hi : i < flags.length := by
      by_contra hc
      rw [List.getD_eq_default _ _ (by omega)] at h
      exact absurd h (by simp)
    rw [List.foldl_cons]
    apply ih
    by_cases hp : p.2
    · rw [if_pos hp]
      rcases eq_or_ne i p.1.1 with rfl | hne
      · rw [List.getD_eq_getElem _ _ (by simpa using hi)]
        simp
      · rw [List.getD_eq_getElem _ _ (by simpa using hi), List.getElem_set_ne (Ne.symm hne),
          ← List.getD_eq_getElem flags false hi]
        exact h
    · rw [if_neg hp]
      exact h

/-- A pair in the fold list whose account exists forces its flag to be
set in the final flag vector. -/
theorem spentFold_mem (l : List ((ℕ × ℕ) × Bool)) :
    ∀ (flags : List Bool) (p : (ℕ × ℕ) × Bool), p ∈ l → p.2 = true → p.1.1 < flags.length →
      (l.foldl (fun fl ipa => if ipa.2 then fl.set ipa.1.1 true else fl) flags).getD p.1.1 false
        = true := by
  induction l with
  | nil => intro flags p hp; simp at hp
  | cons q rest ih =>
    intro flags p hp h2 hlen
    rw [List.foldl_cons]
    rcases List.mem_cons.mp hp with rfl | hmem
    · rw [if_pos h2]
      apply spentFold_mono
      rw [List.getD_eq_getElem _ _ (by simpa using hlen)]
      simp
    · apply ih _ _ hmem h2
      have : (if q.2 = true then flags.set q.1.1 true else flags).length = flags.length := by
        split <;> simp
      omega

theorem are_utxos_spent_length (H : List ℕ → ℕ) (findPda : List (List ℕ) → ℕ)
    (ledger : ℕ → Bool) (utxos : List Utxo) :
    (are_utxos_spent H findPda ledger utxos).length = utxos.length := by
  simp only [are_utxos_spent]
  rw [spentFold_length]
  simp

theorem zip_map_self {α β : Type} (g : α → β) (l : List α) :
    l.zip (l.map g) = l.map (fun a => (a, g a)) := by
  induction l with
  | nil => rfl
  | cons a rest ih => simp [ih]

theorem mem_enum_of_getElem (l : List Utxo) (j : ℕ) (hj : j < l.length) :
    (j, l[j]) ∈ l.enum := by
  rw [List.mem_iff_getElem]
  exact ⟨j, by simpa using hj, by rw [List.getElem_enum]⟩

/-- If the final spent flag of UTXO `j` is false, then neither of its two
nullifier PDA accounts exists on the ledger. -/
theorem are_utxos_spent_false (H : List ℕ → ℕ) (findPda : List (List ℕ) → ℕ)
    (ledger : ℕ → Bool) (utxos : List Utxo) (j : ℕ) (hj : j < utxos.length)
    (hfalse : (are_utxos_spent H findPda ledger utxos).getD j false = false) :
    ledger (findPda [nullifier0Seed, string_to_nullifier_bytes (utxos[j].get_nullifier H)])
      = false ∧
    ledger (findPda [nullifier1Seed, string_to_nullifier_bytes (utxos[j].get_nullifier H)])
      = false := by
  simp only [are_utxos_spent] at hfalse
  set allPdas := utxos.enum.flatMap (fun iu =>
    [(iu.1, findPda [nullifier0Seed, string_to_nullifier_bytes (iu.2.get_nullifier H)]),
     (iu.1, findPda [nullifier1Seed, string_to_nullifier_bytes (iu.2.get_nullifier H)])])
    with hall
  rw [zip_map_self] at hfalse
  constructor
  · by_contra hc
    have htrue : ledger (findPda
        [nullifier0Seed, string_to_nullifier_bytes (utxos[j].get_nullifier H)]) = true := by
      revert hc
      cases ledger (findPda
        [nullifier0Seed, string_to_nullifier_bytes (utxos[j].get_nullifier H)]) <;> simp
    have hmem : ((j, findPda
        [nullifier0Seed, string_to_nullifier_bytes (utxos[j].get_nullifier H)]), true)
        ∈ allPdas.map (fun q => (q, ledger q.2)) := by
      apply List.mem_map.mpr
      refine ⟨(j, findPda
        [nullifier0Seed, string_to_nullifier_bytes (utxos[j].get_nullifier H)]), ?_, ?_⟩
      · rw [hall]
        apply List.mem_flatMap.mpr
        exact ⟨(j, utxos[j]), mem_enum_of_getElem utxos j hj, by simp⟩
      · rw [htrue]
    have := spentFold_mem _ (List.replicate utxos.length false) _ hmem rfl
      (by simpa using hj)
    rw [this] at hfalse
    exact absurd hfalse (by simp)
  · by_contra hc
    have htrue : ledger (findPda
        [nullifier1Seed, string_to_nullifier_bytes (utxos[j].get_nullifier H)]) = true := by
      revert hc
      cases ledger (findPda
        [nullifier1Seed, string_to_nullifier_bytes (utxos[j].get_nullifier H)]) <;> simp
    have hmem : ((j, findPda
        [nullifier1Seed, string_to_nullifier_bytes (utxos[j].get_nullifier H)]), true)
        ∈ allPdas.map (fun q => (q, ledger q.2)) := by
      apply List.mem_map.mpr
      refine ⟨(j, findPda
        [nullifier1Seed, string_to_nullifier_bytes (utxos[j].get_nullifier H)]), ?_, ?_⟩
      · rw [hall]
        apply List.mem_flatMap.mpr
        exact ⟨(j, utxos[j]), mem_enum_of_getElem utxos j hj, by simp⟩
      · rw [htrue]
    have := spentFold_mem _ (List.replicate utxos.length false) _ hmem rfl
      (by simpa using hj)
    rw [this] at hfalse
    exact absurd hfalse (by simp)

/-- Membership in the collect-unspent fold comes from the accumulator or
from a pair with an unset spent flag. -/
theorem pushFold_mem (l : List (Utxo × Bool)) :
    ∀ (acc : List Utxo) (u : Utxo),
      u ∈ l.foldl (fun a us => if us.2 then a else a ++ [us.1]) acc →
      u ∈ acc ∨ ∃ p, p ∈ l ∧ p.1 = u ∧ p.2 = false := by
  induction l with
  | nil => intro acc u h; exact Or.inl h
  | cons q rest ih =>
    intro acc u h
    rw [List.foldl_cons] at h
    by_cases hq : q.2
    · rw [if_pos hq] at h
      rcases ih acc u h with h1 | ⟨p, hp, h2, h3⟩
      · exact Or.inl h1
      · exact Or.inr ⟨p, List.mem_cons_of_mem _ hp, h2, h3⟩
    · rw [if_neg hq] at h
      rcases ih _ u h with h1 | ⟨p, hp, h2, h3⟩
      · rcases List.mem_append.mp h1 with h4 | h4
        · exact Or.inl h4
        · have h5 : u = q.1 := by simpa using h4
          exact Or.inr ⟨q, List.mem_cons_self _ _, h5.symm, by simpa using hq⟩
      · exact Or.inr ⟨p, List.mem_cons_of_mem _ hp, h2, h3⟩

/-- Every UTXO returned by a page's filtering step has positive u64
amount and no existing nullifier PDA account. -/
theorem processPage_spec (H : List ℕ → ℕ) (findPda : List (List ℕ) → ℕ)
    (ledger : ℕ → Bool) (fetched : List Utxo) (u : Utxo)
    (hu : u ∈ processPage H findPda ledger fetched) :
    0 < u.amount_u64 ∧
    ledger (findPda [nullifier0Seed, string_to_nullifier_bytes (u.get_nullifier H)]) = false ∧
    ledger (findPda [nullifier1Seed, string_to_nullifier_bytes (u.get_nullifier H)]) = false := by
  simp only [processPage] at hu
  rcases pushFold_mem _ [] u hu with h | ⟨p, hp, hpu, hpfalse⟩
  · simp at h
  obtain ⟨j, hjlen, hjeq⟩ := List.getElem_of_mem hp
  have hjz : j < (fetched.filter (fun u => decide (0 < u.amount_u64))).length ∧
      j < (are_utxos_spent H findPda ledger
        (fetched.filter (fun u => decide (0 < u.amount_u64)))).length := by
    rw [List.length_zip] at hjlen
    omega
  rw [List.getElem_zip] at hjeq
  have hju : (fetched.filter (fun u => decide (0 < u.amount_u64)))[j] = u := by
    rw [← hpu, ← hjeq]
  have hjf : (are_utxos_spent H findPda ledger
      (fetched.filter (fun u => decide (0 < u.amount_u64)))).getD j false = false := by
    rw [List.getD_eq_getElem _ _ hjz.2, ← hpfalse, ← hjeq]
  have hspent := are_utxos_spent_false H findPda ledger _ j
    (by rw [← are_utxos_spent_length H findPda ledger]; exact hjz.2) hjf
  rw [hju] at hspent
  refine ⟨?_, hspent.1, hspent.2⟩
  have hmem : u ∈ fetched.filter (fun u => decide (0 < u.amount_u64)) := by
    rw [← hju]
    exact List.getElem_mem hjz.1
  have := List.of_mem_filter hmem
  simpa using this

/-- Claim C6: in a scanner run, every decrypted UTXO whose amount is zero,
or for which either of the two nullifier-derived program accounts
(seed strings "nullifier0"/"nullifier1" over the nullifier bytes) exists
on the ledger, is excluded from the returned unspent set. -/
theorem claim_C6 (H : List ℕ → ℕ) (findPda : List (List ℕ) → ℕ) (ledger : ℕ → Bool)
    (pages : List (List Utxo)) (u : Utxo)
    (hbad : u.amount_u64 = 0 ∨
      ledger (findPda [nullifier0Seed, string_to_nullifier_bytes (u.get_nullifier H)]) = true ∨
      ledger (findPda [nullifier1Seed, string_to_nullifier_bytes (u.get_nullifier H)]) = true) :
    u ∉ getUtxosRun H findPda ledger pages := by
  intro hmem
  rw [getUtxosRun, List.mem_flatten] at hmem
  obtain ⟨l, hl, hul⟩ := hmem
  obtain ⟨page, _, rfl⟩ := List.mem_map.mp hl
  have hspec := processPage_spec H findPda ledger page u hul
  rcases hbad with h | h | h
  · omega
  · rw [hspec.2.1] at h
    exact absurd h (by simp)
  · rw [hspec.2.2] at h
    exact absurd h (by simp)

/-- Witness for C6: with a ledger on which every account exists, a
decrypted positive-amount UTXO is excluded from the returned set. -/
theorem claim_C6_witness :
    u64maxUtxo ∉ getUtxosRun sumH (fun _ => 0) (fun _ => true) [[u64maxUtxo]] :=
  claim_C6 sumH (fun _ => 0) (fun _ => true) [[u64maxUtxo]] u64maxUtxo (Or.inr (Or.inl rfl))

/-! ## `withdraw_all` (`src/client.rs` lines 240-256)

`withdraw_all` first calls `get_private_balance`, which runs the scanner
(`get_utxos`, one relayer page request per loop iteration — the loop body
always executes at least once) and sums the unspent UTXOs; if the balance
is zero it returns `InsufficientBalance{need:1, have:0}`, otherwise it
calls `withdraw(balance.lamports, recipient)`.  Network activity is made
observable as an event trace: one `fetchPage` per scanner iteration and a
`withdrawSubmit` carrying the requested lamports when `withdraw` is
invoked. -/

/-- Observable network operations of a `withdraw_all` run. -/
inductive NetEvent where
  | fetchPage
  | withdrawSubmit (lamports : ℕ)
  deriving DecidableEq, Repr

/-- `PrivacyCash::withdraw_all` over a scanner run with the given pages:
the result (error, or the lamports passed to `withdraw`) paired with the
network-event trace. -/
def withdraw_all (H : List ℕ → ℕ) (findPda : List (List ℕ) → ℕ) (ledger : ℕ → Bool)
    (pages : List (List Utxo)) : Except PCError ℕ × List NetEvent :=
  let utxos := getUtxosRun H findPda ledger pages
  let trace := pages.map (fun _ => NetEvent.fetchPage)
  let balance := get_balance_from_utxos utxos
  if balance.lamports = 0 then (.error (.insufficientBalance 1 0), trace)
  else (.ok balance.lamports, trace ++ [NetEvent.withdrawSubmit balance.lamports])

/-- Counterexample to C7 as stated: with a zero balance (an empty page),
`withdraw_all` does fail with `InsufficientBalance{need:1, have:0}`, but
its trace contains the scanner's page-fetch network request — the
balance is only known after `get_private_balance` has gone to the
network, so "without making any network call" fails. -/
theorem claim_C7_counterexample :
    (withdraw_all sumH (fun _ => 0) (fun _ => false) [[]]).1
        = .error (.insufficientBalance 1 0) ∧
    (withdraw_all sumH (fun _ => 0) (fun _ => false) [[]]).2 = [NetEvent.fetchPage] ∧
    (withdraw_all sumH (fun _ => 0) (fun _ => false) [[]]).2 ≠ [] :=
  ⟨rfl, rfl, by decide⟩

/-- Amended claim C7: with private balance `B > 0`, `withdraw_all`
requests a withdrawal of exactly `B` lamports; with `B = 0` it fails with
`InsufficientBalance{need:1, have:0}` without making any
withdrawal-submission network call (the balance-fetching scan itself
still performs page requests). -/
theorem claim_C7_amended (H : List ℕ → ℕ) (findPda : List (List ℕ) → ℕ)
    (ledger : ℕ → Bool) (pages : List (List Utxo)) (bal : ℕ)
    (hbal : (get_balance_from_utxos (getUtxosRun H findPda ledger pages)).lamports = bal) :
    (0 < bal → withdraw_all H findPda ledger pages
        = (.ok bal, pages.map (fun _ => NetEvent.fetchPage) ++ [NetEvent.withdrawSubmit bal])) ∧
    (bal = 0 → withdraw_all H findPda ledger pages
          = (.error (.insufficientBalance 1 0), pages.map (fun _ => NetEvent.fetchPage)) ∧
        ∀ n, NetEvent.withdrawSubmit n ∉ (withdraw_all H findPda ledger pages).2) := by
  constructor
  · intro hpos
    rw [withdraw_all]
    simp only [hbal]
    rw [if_neg (by omega)]
  · intro hzero
    have heq : withdraw_all H findPda ledger pages
        = (.error (.insufficientBalance 1 0), pages.map (fun _ => NetEvent.fetchPage)) := by
      rw [withdraw_all]
      simp only [hbal]
      rw [if_pos hzero]
    refine ⟨heq, fun n hmem => ?_⟩
    rw [heq] at hmem
    simp only [List.mem_map] at hmem
    obtain ⟨_, _, hcontra⟩ := hmem
    exact NetEvent.noConfusion hcontra

/-- Witness for the amended C7 on a concrete zero-balance run. -/
theorem claim_C7_witness :
    withdraw_all sumH (fun _ => 0) (fun _ => true) [[u64maxUtxo]]
        = (.error (.insufficientBalance 1 0), [NetEvent.fetchPage]) ∧
    ∀ n, NetEvent.withdrawSubmit n
        ∉ (withdraw_all sumH (fun _ => 0) (fun _ => true) [[u64maxUtxo]]).2 :=
  (claim_C7_amended sumH (fun _ => 0) (fun _ => true) [[u64maxUtxo]] 0 (by decide)).2 rfl

end PrivacyCash
